import Mathlib

/-!
Shallow embedding of the paper-plagiarism-check core:
`utils/text_processor.py` (TextProcessor), `algorithms/lcs_algorithm.py`
(LCSEngine) and the similarity path of `main.py` (PaperCheckSystem).

Texts are modelled as lists of Unicode code points (`List Nat`); a Python
string `s` corresponds to `strCodes s`.  Python `float` arithmetic in the
scoring step is modelled exactly over `ℚ`; `round(x, 4)` is modelled as
round-half-to-even on the value scaled by 10^4.
-/

/-- Code points of a Lean string literal, used to write concrete inputs. -/
def strCodes (s : String) : List Nat := s.data.map Char.toNat

/-- Whitespace class used by Python's `re` `\s` and `str.split()` /
`str.strip()` on `str` inputs: ASCII whitespace (TAB..CR, SPACE), the
C1/Unicode space code points. -/
def pyIsSpace (c : Nat) : Bool :=
  (0x9 ≤ c && c ≤ 0xd) || c == 0x20 || (0x1c ≤ c && c ≤ 0x1f) || c == 0x85 ||
    c == 0xa0 || c == 0x1680 || (0x2000 ≤ c && c ≤ 0x200a) || c == 0x2028 ||
    c == 0x2029 || c == 0x202f || c == 0x205f || c == 0x3000

/-- The character class kept by the regex
`[^一-鿿0-9A-Za-z\s]` in
`TextProcessor.standardize_text` (a matched character is NOT in this class
and is replaced): CJK unified ideographs, ASCII digits, ASCII upper and
lower case letters, and whitespace. -/
def allowedChar (c : Nat) : Bool :=
  (0x4e00 ≤ c && c ≤ 0x9fff) || (0x30 ≤ c && c ≤ 0x39) ||
    (0x41 ≤ c && c ≤ 0x5a) || (0x61 ≤ c && c ≤ 0x7a) || pyIsSpace c

/-- Python `str.lower()`, restricted to the fragment relevant here: ASCII
upper-case letters map to the corresponding lower-case letters and every
other code point is unchanged.  (Full Unicode case mapping agrees with this
on all characters of the allowed domain of `standardize_text`.) -/
def pyLower (c : Nat) : Nat := if 0x41 ≤ c ∧ c ≤ 0x5a then c + 32 else c

/-- Step 2 of `standardize_text`: `re.sub(r'[^...]', ' ', text)` — every
character outside `allowedChar` is replaced by a single space. -/
def filterSymbols (s : List Nat) : List Nat :=
  s.map fun c => if allowedChar c then c else 0x20

/-- State of the left-to-right scan implementing `re.sub(r'\s{2,}', ' ')`:
either the previous character was not whitespace (`plain`), or exactly one
whitespace character `w` is pending (`single w`), or we are inside a
whitespace run of length at least two whose single replacement space has
already been emitted (`run`). -/
inductive WsState where
  | plain : WsState
  | single : Nat → WsState
  | run : WsState

/-- Scan for `collapseWs`.  A maximal whitespace run of length ≥ 2 is
emitted as one space 0x20; a lone whitespace character is emitted
unchanged. -/
def collapseAux : WsState → List Nat → List Nat
  | .plain, [] => []
  | .single w, [] => [w]
  | .run, [] => []
  | .plain, c :: cs =>
    if pyIsSpace c then collapseAux (.single c) cs else c :: collapseAux .plain cs
  | .single w, c :: cs =>
    if pyIsSpace c then 0x20 :: collapseAux .run cs
    else w :: c :: collapseAux .plain cs
  | .run, c :: cs =>
    if pyIsSpace c then collapseAux .run cs else c :: collapseAux .plain cs

/-- Step 3 of `standardize_text`: `re.sub(r'\s{2,}', ' ', text)` — every
maximal run of two or more whitespace characters is replaced by one space
(a lone whitespace character is left as it is). -/
def collapseWs (s : List Nat) : List Nat := collapseAux .plain s

/-- Step 4 of `standardize_text`: Python `str.strip()` — remove leading and
trailing whitespace. -/
def pyStrip (s : List Nat) : List Nat :=
  ((s.dropWhile pyIsSpace).reverse.dropWhile pyIsSpace).reverse

/-- `TextProcessor.standardize_text`: empty / falsy input yields the empty
text, otherwise lower-casing, symbol filtering, whitespace collapsing and
stripping are applied in this order. -/
def standardize_text (raw_input : List Nat) : List Nat :=
  if raw_input = [] then []
  else pyStrip (collapseWs (filterSymbols (raw_input.map pyLower)))

/-- One step of splitting, consuming characters from the right: a
whitespace character opens a new (initially empty) fragment, any other
character is prepended to the current first fragment. -/
def splitStep (c : Nat) (acc : List (List Nat)) : List (List Nat) :=
  if pyIsSpace c then [] :: acc
  else
    match acc with
    | [] => [[c]]
    | g :: gs => (c :: g) :: gs

/-- Python `str.split()` with no separator: cut the text at every
whitespace character and discard the empty fragments, which is exactly
splitting on maximal whitespace runs. -/
def pySplit (s : List Nat) : List (List Nat) :=
  (s.foldr splitStep []).filter (fun g => decide (g ≠ []))

/-- `TextProcessor.tokenize_content`: empty text yields no tokens, otherwise
the text is split on whitespace. -/
def tokenize_content (processed_text : List Nat) : List (List Nat) :=
  if processed_text = [] then [] else pySplit processed_text

/-- Inner loop of `LCSEngine.calculate_lcs_length` filling one row of the
DP table, walking the second sequence.  At the step that computes column
`j` of the current row, `diag` is entry `j-1` of the previous row, `prev`
holds entries `j, j+1, ...` of the previous row and `left` is entry `j-1`
of the current row. -/
def lcsInner {α : Type} [DecidableEq α] (x : α) :
    List α → List Nat → Nat → Nat → List Nat
  | [], _, _, _ => []
  | y :: ys, prev, diag, left =>
    let cur := if x = y then diag + 1 else max prev.headI left
    cur :: lcsInner x ys prev.tail prev.headI cur

/-- `LCSEngine.calculate_lcs_length`: rolling two-row dynamic programming.
The two zero-initialised row buffers with parity toggling are modelled by
the single live row: in the source, entry `0` of the current buffer always
stays `0` and entries `1..m` are all overwritten (left to right, each read
of `dp_table[current_row][idx_b - 1]` sees the value written in the same
pass), so the stale buffer contents are never read, and the returned
`dp_table[n % 2][m]` is the last entry of the row produced by the final
pass. -/
def calculate_lcs_length {α : Type} [DecidableEq α] (seq_a seq_b : List α) : Nat :=
  if seq_a.length = 0 ∨ seq_b.length = 0 then 0
  else
    let init : List Nat := List.replicate (seq_b.length + 1) 0
    let dp_final := seq_a.foldl (fun row x => 0 :: lcsInner x seq_b row.tail row.headI 0) init
    dp_final.getLastD 0

/-- Mathematical specification of the LCS length: recursion on the heads of
the two sequences. -/
def lcsSpec {α : Type} [DecidableEq α] : List α → List α → Nat
  | [], _ => 0
  | _ :: _, [] => 0
  | x :: xs, y :: ys =>
    if x = y then lcsSpec xs ys + 1
    else max (lcsSpec (x :: xs) ys) (lcsSpec xs (y :: ys))
termination_by a b => a.length + b.length
decreasing_by all_goals simp_arith

/-- Modelled from the spec: cell `(i, j)` of the reference full-table
O(n·m) dynamic program, with base row and base column all zeros and the
recurrence `dp[i][j] = dp[i-1][j-1]+1` when `a[i-1] = b[j-1]`, else
`max (dp[i-1][j]) (dp[i][j-1])`. -/
def lcs_reference {α : Type} [DecidableEq α] (a b : List α) : Nat → Nat → Nat
  | 0, _ => 0
  | _ + 1, 0 => 0
  | i + 1, j + 1 =>
    if a.get? i = b.get? j then lcs_reference a b i j + 1
    else max (lcs_reference a b i (j + 1)) (lcs_reference a b (i + 1) j)
termination_by i j => (i, j)

/-- Modelled from the spec: the value of the reference full-table DP,
read at row `n`, column `m`. -/
def lcs_full_table {α : Type} [DecidableEq α] (a b : List α) : Nat :=
  lcs_reference a b a.length b.length

/-- Round-half-to-even of a rational to an integer (the rounding rule of
Python's `round`). -/
def roundHalfEven (q : ℚ) : ℤ :=
  if q - ⌊q⌋ < 1/2 then ⌊q⌋
  else if 1/2 < q - ⌊q⌋ then ⌊q⌋ + 1
  else if ⌊q⌋ % 2 = 0 then ⌊q⌋ else ⌊q⌋ + 1

/-- Python `round(x, 4)`: round-half-to-even at four decimal digits. -/
def round4 (q : ℚ) : ℚ := (roundHalfEven (q * 10000) : ℚ) / 10000

/-- Denominator of the similarity ratio: `len(token_list_a) or 1`, i.e. the
token count of the first text, floored at 1. -/
def base_length_of (text_a : List Nat) : Nat :=
  if (tokenize_content (standardize_text text_a)).length = 0 then 1
  else (tokenize_content (standardize_text text_a)).length

/-- `LCSEngine.compute_textual_similarity`: normalize and tokenize both
texts, compute the LCS length of the token sequences, divide by the floored
token count of the first text, clamp to [0, 1] and round to 4 decimal
digits. -/
def compute_textual_similarity (text_a text_b : List Nat) : ℚ :=
  let token_list_a := tokenize_content (standardize_text text_a)
  let token_list_b := tokenize_content (standardize_text text_b)
  let lcs_value := calculate_lcs_length token_list_a token_list_b
  let base_length := base_length_of text_a
  round4 (max 0 (min 1 ((lcs_value : ℚ) / (base_length : ℚ))))

section LcsTheory

variable {α : Type} [DecidableEq α]

theorem lcsSpec_nil_left (l : List α) : lcsSpec [] l = 0 := by
  simp [lcsSpec]

theorem lcsSpec_nil_right (l : List α) : lcsSpec l [] = 0 := by
  cases l <;> simp [lcsSpec]

theorem lcsSpec_cons_cons (x y : α) (xs ys : List α) :
    lcsSpec (x :: xs) (y :: ys) =
      if x = y then lcsSpec xs ys + 1
      else max (lcsSpec (x :: xs) ys) (lcsSpec xs (y :: ys)) := by
  simp [lcsSpec]

/-- There is a common subsequence of `xs` and `ys` whose length is
`lcsSpec xs ys`. -/
theorem lcsSpec_exists_common (xs : List α) : ∀ ys : List α,
    ∃ s : List α, s.Sublist xs ∧ s.Sublist ys ∧ s.length = lcsSpec xs ys := by
  induction xs with
  | nil =>
    intro ys
    exact ⟨[], List.nil_sublist _, List.nil_sublist _, by simp [lcsSpec_nil_left]⟩
  | cons x xs ihx =>
    intro ys
    induction ys with
    | nil =>
      exact ⟨[], List.nil_sublist _, List.nil_sublist _, by simp [lcsSpec_nil_right]⟩
    | cons y ys ihy =>
      rw [lcsSpec_cons_cons]
      by_cases hxy : x = y
      · subst hxy
        obtain ⟨s, hsx, hsy, hlen⟩ := ihx ys
        exact ⟨x :: s, List.cons_sublist_cons.mpr hsx, List.cons_sublist_cons.mpr hsy,
          by simp [hlen]⟩
      · rw [if_neg hxy]
        rcases Nat.le_total (lcsSpec (x :: xs) ys) (lcsSpec xs (y :: ys)) with hle | hle
        · obtain ⟨s, hsx, hsy, hlen⟩ := ihx (y :: ys)
          exact ⟨s, hsx.cons x, hsy, by omega⟩
        · obtain ⟨s, hsx, hsy, hlen⟩ := ihy
          exact ⟨s, hsx, hsy.cons y, by omega⟩

/-- Every common subsequence of `xs` and `ys` has length at most
`lcsSpec xs ys`. -/
theorem lcsSpec_is_max (xs : List α) : ∀ (ys s : List α),
    s.Sublist xs → s.Sublist ys → s.length ≤ lcsSpec xs ys := by
  induction xs with
  | nil =>
    intro ys s hsx _
    simp [List.sublist_nil.mp hsx, lcsSpec_nil_left]
  | cons x xs ihx =>
    intro ys
    induction ys with
    | nil =>
      intro s _ hsy
      simp [List.sublist_nil.mp hsy, lcsSpec_nil_right]
    | cons y ys ihy =>
      intro s hsx hsy
      rw [lcsSpec_cons_cons]
      by_cases hxy : x = y
      · subst hxy
        rw [if_pos rfl]
        cases s with
        | nil => simp
        | cons z s =>
          have hsx' : s.Sublist xs := by
            cases hsx with
            | cons _ h => exact (List.sublist_cons_self z s).trans h
            | cons₂ _ h => exact h
          have hsy' : s.Sublist ys := by
            cases hsy with
            | cons _ h => exact (List.sublist_cons_self z s).trans h
            | cons₂ _ h => exact h
          have hle := ihx ys s hsx' hsy'
          simpa using Nat.succ_le_succ hle
      · rw [if_neg hxy]
        cases s with
        | nil => simp
        | cons z s =>
          by_cases hzx : z = x
          · have hzy : z ≠ y := by rw [hzx]; exact hxy
            have hsy' : (z :: s).Sublist ys := by
              cases hsy with
              | cons _ h => exact h
              | cons₂ _ h => exact absurd rfl hzy
            exact le_max_of_le_left (ihy (z :: s) hsx hsy')
          · have hsx' : (z :: s).Sublist xs := by
              cases hsx with
              | cons _ h => exact h
              | cons₂ _ h => exact absurd rfl hzx
            exact le_max_of_le_right (ihx (y :: ys) (z :: s) hsx' hsy)

/-- The LCS length is invariant under reversing both sequences. -/
theorem lcsSpec_reverse_le (xs ys : List α) :
    lcsSpec xs ys ≤ lcsSpec xs.reverse ys.reverse := by
  obtain ⟨s, hsx, hsy, hlen⟩ := lcsSpec_exists_common xs ys
  have := lcsSpec_is_max xs.reverse ys.reverse s.reverse hsx.reverse hsy.reverse
  simpa [hlen] using this

/-- The LCS length is invariant under reversing both sequences. -/
theorem lcsSpec_reverse (xs ys : List α) :
    lcsSpec xs.reverse ys.reverse = lcsSpec xs ys := by
  refine le_antisymm ?_ (lcsSpec_reverse_le xs ys)
  have h := lcsSpec_reverse_le xs.reverse ys.reverse
  simpa using h

/-- Appending a common last element increments the LCS length. -/
theorem lcsSpec_snoc_eq (xs ys : List α) (x : α) :
    lcsSpec (xs ++ [x]) (ys ++ [x]) = lcsSpec xs ys + 1 := by
  rw [← lcsSpec_reverse (xs ++ [x]) (ys ++ [x])]
  simp only [List.reverse_append, List.reverse_singleton, List.singleton_append]
  rw [lcsSpec_cons_cons, if_pos rfl, lcsSpec_reverse]

/-- Appending distinct last elements: the LCS satisfies the max recurrence
at the right end. -/
theorem lcsSpec_snoc_ne (xs ys : List α) {x y : α} (hxy : x ≠ y) :
    lcsSpec (xs ++ [x]) (ys ++ [y]) =
      max (lcsSpec (xs ++ [x]) ys) (lcsSpec xs (ys ++ [y])) := by
  rw [← lcsSpec_reverse (xs ++ [x]) (ys ++ [y])]
  simp only [List.reverse_append, List.reverse_singleton, List.singleton_append]
  rw [lcsSpec_cons_cons, if_neg hxy]
  have h1 : lcsSpec (x :: xs.reverse) ys.reverse = lcsSpec (xs ++ [x]) ys := by
    rw [← lcsSpec_reverse (xs ++ [x]) ys]
    simp [List.reverse_append]
  have h2 : lcsSpec xs.reverse (y :: ys.reverse) = lcsSpec xs (ys ++ [y]) := by
    rw [← lcsSpec_reverse xs (ys ++ [y])]
    simp [List.reverse_append]
  rw [h1, h2]

/-- Row `j` entries of the DP table, as specified by `lcsSpec` on growing
right-extensions of `q` by the elements of the third argument. -/
def specRow (p q : List α) : List α → List Nat
  | [] => []
  | z :: zs => lcsSpec p (q ++ [z]) :: specRow p (q ++ [z]) zs

theorem specRow_nil_left (q : List α) : ∀ zs : List α,
    specRow [] q zs = List.replicate zs.length 0 := by
  intro zs
  induction zs generalizing q with
  | nil => simp [specRow]
  | cons z zs ih => simp [specRow, lcsSpec_nil_left, ih, List.replicate_succ]

theorem specRow_getLastD (p : List α) : ∀ (zs q : List α) (d : Nat), zs ≠ [] →
    (specRow p q zs).getLastD d = lcsSpec p (q ++ zs) := by
  intro zs
  induction zs with
  | nil => intro q d h; exact absurd rfl h
  | cons z zs ih =>
    intro q d _
    cases zs with
    | nil => simp [specRow]
    | cons w ws =>
      rw [specRow, List.getLastD_cons, ih (q ++ [z]) _ (by simp)]
      simp

/-- The inner loop of `calculate_lcs_length` turns the `lcsSpec` row for
processed input `p` into the row for `p ++ [x]`. -/
theorem lcsInner_spec (x : α) : ∀ (zs q p : List α),
    lcsInner x zs (specRow p q zs) (lcsSpec p q) (lcsSpec (p ++ [x]) q) =
      specRow (p ++ [x]) q zs := by
  intro zs
  induction zs with
  | nil => intro q p; simp [lcsInner, specRow]
  | cons z zs ih =>
    intro q p
    rw [specRow, lcsInner]
    have hcur : (if x = z then lcsSpec p q + 1
        else max (lcsSpec p (q ++ [z]) :: specRow p (q ++ [z]) zs).headI
          (lcsSpec (p ++ [x]) q)) = lcsSpec (p ++ [x]) (q ++ [z]) := by
      by_cases hxz : x = z
      · subst hxz
        rw [if_pos rfl, lcsSpec_snoc_eq]
      · rw [if_neg hxz, lcsSpec_snoc_ne p q hxz]
        exact Nat.max_comm _ _
    rw [hcur]
    simp only [List.tail_cons, List.headI]
    rw [ih (q ++ [z]) p]
    rfl

/-- Folding the row update over the remaining input extends the processed
input on the right. -/
theorem lcs_foldl_spec (b : List α) : ∀ (rest p : List α),
    List.foldl (fun row x => 0 :: lcsInner x b row.tail row.headI 0)
        (0 :: specRow p [] b) rest =
      0 :: specRow (p ++ rest) [] b := by
  intro rest
  induction rest with
  | nil => intro p; simp
  | cons x rest ih =>
    intro p
    rw [List.foldl_cons]
    have hstep : (0 :: lcsInner x b (0 :: specRow p [] b).tail
        (0 :: specRow p [] b).headI 0) = 0 :: specRow (p ++ [x]) [] b := by
      simp only [List.tail_cons, List.headI]
      have h0 : (0 : Nat) = lcsSpec p [] := (lcsSpec_nil_right p).symm
      have h0' : (0 : Nat) = lcsSpec (p ++ [x]) [] := (lcsSpec_nil_right _).symm
      rw [show lcsInner x b (specRow p [] b) 0 0
            = lcsInner x b (specRow p [] b) (lcsSpec p []) (lcsSpec (p ++ [x]) []) by
          rw [← h0, ← h0']]
      rw [lcsInner_spec x b [] p]
    rw [hstep, ih (p ++ [x])]
    simp

/-- The rolling-array implementation computes `lcsSpec`. -/
theorem calculate_lcs_length_eq_lcsSpec (a b : List α) :
    calculate_lcs_length a b = lcsSpec a b := by
  rcases a with _ | ⟨x, a'⟩
  · simp [calculate_lcs_length, lcsSpec_nil_left]
  rcases b with _ | ⟨y, b'⟩
  · simp [calculate_lcs_length, lcsSpec_nil_right]
  rw [calculate_lcs_length]
  rw [if_neg (by simp)]
  have hinit : List.replicate ((y :: b').length + 1) 0
      = 0 :: specRow [] [] (y :: b') := by
    rw [List.replicate_succ, specRow_nil_left]
  simp only [hinit]
  rw [lcs_foldl_spec (y :: b') (x :: a') []]
  rw [List.getLastD_cons, specRow_getLastD _ _ _ _ (by simp)]
  simp

/-- The reference full-table DP cell `(i, j)` is the LCS length of the
first `i` elements of `a` and the first `j` elements of `b`. -/
theorem lcs_reference_eq (a b : List α) : ∀ i j, i ≤ a.length → j ≤ b.length →
    lcs_reference a b i j = lcsSpec (a.take i) (b.take j) := by
  intro i
  induction i with
  | zero => intro j _ _; simp [lcs_reference, lcsSpec_nil_left]
  | succ i ihi =>
    intro j
    induction j with
    | zero => intro _ _; simp [lcs_reference, lcsSpec_nil_right]
    | succ j ihj =>
      intro hi hj
      have hia : i < a.length := by omega
      have hjb : j < b.length := by omega
      obtain ⟨ai, hai⟩ : ∃ ai, a.get? i = some ai := ⟨a.get ⟨i, hia⟩, List.get?_eq_get hia⟩
      obtain ⟨bj, hbj⟩ : ∃ bj, b.get? j = some bj := ⟨b.get ⟨j, hjb⟩, List.get?_eq_get hjb⟩
      have hta : a.take (i + 1) = a.take i ++ [ai] := by
        rw [List.take_succ]
        simp [← List.get?_eq_getElem?, hai]
      have htb : b.take (j + 1) = b.take j ++ [bj] := by
        rw [List.take_succ]
        simp [← List.get?_eq_getElem?, hbj]
      rw [lcs_reference, hta, htb, hai, hbj]
      by_cases hab : ai = bj
      · rw [if_pos (by rw [hab]), ihi j (by omega) (by omega), hab, lcsSpec_snoc_eq]
      · rw [if_neg (by simpa using hab), lcsSpec_snoc_ne _ _ hab]
        rw [ihi (j + 1) (by omega) hj, ihj (by omega) (by omega), htb, hta]
        exact Nat.max_comm _ _

/-- The rolling-array implementation agrees with the reference full table. -/
theorem calculate_eq_full_table (a b : List α) :
    calculate_lcs_length a b = lcs_full_table a b := by
  rw [calculate_lcs_length_eq_lcsSpec, lcs_full_table,
    lcs_reference_eq a b a.length b.length le_rfl le_rfl,
    List.take_length, List.take_length]

end LcsTheory

section Rounding

theorem roundHalfEven_nonneg {q : ℚ} (h : 0 ≤ q) : 0 ≤ roundHalfEven q := by
  have hfl : (0 : ℤ) ≤ ⌊q⌋ := Int.floor_nonneg.mpr h
  rw [roundHalfEven]
  split_ifs <;> omega

theorem roundHalfEven_le {q : ℚ} {n : ℤ} (h : q ≤ (n : ℚ)) : roundHalfEven q ≤ n := by
  have hfl : ⌊q⌋ ≤ n := by
    calc ⌊q⌋ ≤ ⌊(n : ℚ)⌋ := Int.floor_le_floor h
    _ = n := Int.floor_intCast n
  have hle : (⌊q⌋ : ℚ) ≤ q := Int.floor_le q
  rw [roundHalfEven]
  split_ifs with h1 h2 h3
  · exact hfl
  · -- here 1/2 < q - ⌊q⌋, so ⌊q⌋ < n
    have hlt : (⌊q⌋ : ℚ) < (n : ℚ) := by linarith
    have : ⌊q⌋ < n := by exact_mod_cast hlt
    omega
  · exact hfl
  · -- tie case: q - ⌊q⌋ = 1/2, so ⌊q⌋ < n
    have heq : q - ⌊q⌋ = 1/2 := le_antisymm (not_lt.mp h2) (not_lt.mp h1)
    have hlt : (⌊q⌋ : ℚ) < (n : ℚ) := by linarith
    have : ⌊q⌋ < n := by exact_mod_cast hlt
    omega

theorem round4_nonneg {q : ℚ} (h : 0 ≤ q) : 0 ≤ round4 q := by
  rw [round4]
  have h10 : (0 : ℚ) ≤ 10000 := by norm_num
  refine div_nonneg ?_ h10
  exact_mod_cast roundHalfEven_nonneg (by positivity)

theorem round4_le_one {q : ℚ} (h : q ≤ 1) : round4 q ≤ 1 := by
  rw [round4]
  rw [div_le_one (by norm_num : (0 : ℚ) < 10000)]
  have hle : q * 10000 ≤ ((10000 : ℤ) : ℚ) := by push_cast; nlinarith
  exact_mod_cast roundHalfEven_le hle

theorem round4_zero : round4 0 = 0 := by
  norm_num [round4, roundHalfEven]

theorem round4_one : round4 1 = 1 := by
  norm_num [round4, roundHalfEven]

end Rounding

section SimilarityLemmas

/-- The LCS length of a sequence with itself is its length. -/
theorem lcsSpec_self {α : Type} [DecidableEq α] (l : List α) :
    lcsSpec l l = l.length := by
  refine le_antisymm ?_ (lcsSpec_is_max l l l (List.Sublist.refl l) (List.Sublist.refl l))
  obtain ⟨s, hsx, _, hlen⟩ := lcsSpec_exists_common l l
  rw [← hlen]
  exact List.Sublist.length_le hsx

/-- Unfolding of `compute_textual_similarity` through named ingredients. -/
theorem compute_textual_similarity_eq (text_a text_b : List Nat) :
    compute_textual_similarity text_a text_b =
      round4 (max 0 (min 1
        ((calculate_lcs_length (tokenize_content (standardize_text text_a))
            (tokenize_content (standardize_text text_b)) : ℚ) /
          (base_length_of text_a : ℚ)))) := rfl

/-- The LCS length is at most the length of either input. -/
theorem lcsSpec_le_min {α : Type} [DecidableEq α] (a b : List α) :
    lcsSpec a b ≤ min a.length b.length := by
  obtain ⟨s, hsa, hsb, hlen⟩ := lcsSpec_exists_common a b
  exact le_min (hlen ▸ List.Sublist.length_le hsa) (hlen ▸ List.Sublist.length_le hsb)

/-- If the first text has no tokens, the similarity is zero. -/
theorem similarity_empty_left {a b : List Nat}
    (h : tokenize_content (standardize_text a) = []) :
    compute_textual_similarity a b = 0 := by
  rw [compute_textual_similarity_eq, h]
  rw [calculate_lcs_length_eq_lcsSpec, lcsSpec_nil_left]
  norm_num [round4_zero]

/-- If the second text has no tokens, the similarity is zero. -/
theorem similarity_empty_right {a b : List Nat}
    (h : tokenize_content (standardize_text b) = []) :
    compute_textual_similarity a b = 0 := by
  rw [compute_textual_similarity_eq, h]
  rw [calculate_lcs_length_eq_lcsSpec, lcsSpec_nil_right]
  norm_num [round4_zero]

/-- A text with at least one token has similarity 1 with itself. -/
theorem similarity_self {t : List Nat}
    (h : tokenize_content (standardize_text t) ≠ []) :
    compute_textual_similarity t t = 1 := by
  rw [compute_textual_similarity_eq]
  rw [calculate_lcs_length_eq_lcsSpec, lcsSpec_self]
  have hlen : (tokenize_content (standardize_text t)).length ≠ 0 := by
    simpa using h
  rw [base_length_of, if_neg hlen]
  rw [div_self (by exact_mod_cast hlen)]
  norm_num [round4_one]

/-- The similarity value always lies in the unit interval. -/
theorem similarity_bounds (a b : List Nat) :
    0 ≤ compute_textual_similarity a b ∧ compute_textual_similarity a b ≤ 1 := by
  rw [compute_textual_similarity_eq]
  constructor
  · exact round4_nonneg (le_max_left _ _)
  · exact round4_le_one (max_le (by norm_num) (min_le_left _ _))

end SimilarityLemmas

/-- A Python value as received by `standardize_text`: `None`, a string, or
any non-string object. -/
inductive PyVal where
  | pynone : PyVal
  | pystr : List Nat → PyVal
  | pyother : PyVal

/-- `TextProcessor.standardize_text` including its leading guard
`if not raw_input or not isinstance(raw_input, str): return ""`:
`None`, non-strings and the (falsy) empty string all give the empty
text. -/
def standardize_text_py : PyVal → List Nat
  | PyVal.pystr s => standardize_text s
  | _ => []

/-- Python `" ".join(tokens)`: concatenation with a single space between
consecutive fragments. -/
def joinSpace : List (List Nat) → List Nat
  | [] => []
  | [t] => t
  | t :: t2 :: ts => t ++ 0x20 :: joinSpace (t2 :: ts)

/-- `PaperCheckSystem.preprocess_texts` for one text: the token list is
computed only when the content is truthy (non-empty); for falsy content the
corresponding field stays `None`. -/
def preprocess_opt (content : List Nat) : Option (List (List Nat)) :=
  if content = [] then none
  else some (tokenize_content (standardize_text content))

/-- `PaperCheckSystem.calculate_similarity`: join each precomputed token
list with single spaces and score the joined texts.  When a token list was
never computed (falsy content), `" ".join(None)` raises a `TypeError`
(re-raised as `RuntimeError`), modelled as `none`. -/
def calculate_similarity (orig plag : List Nat) : Option ℚ :=
  match preprocess_opt orig, preprocess_opt plag with
  | some ta, some tb =>
    some (compute_textual_similarity (joinSpace ta) (joinSpace tb))
  | _, _ => none

section RoundTrip

/-- Characters of the fragments produced by the split fold are non-space
characters of the input. -/
theorem foldr_splitStep_chars : ∀ (s : List Nat) (g : List Nat),
    g ∈ s.foldr splitStep [] → ∀ c ∈ g, pyIsSpace c = false ∧ c ∈ s := by
  intro s
  induction s with
  | nil => simp
  | cons d cs ih =>
    intro g hg c hc
    rw [List.foldr_cons] at hg
    rw [splitStep.eq_def] at hg
    by_cases hd : pyIsSpace d = true
    · rw [if_pos hd] at hg
      rcases List.mem_cons.mp hg with hg | hg
      · subst hg; exact absurd hc (List.not_mem_nil c)
      · obtain ⟨h1, h2⟩ := ih g hg c hc
        exact ⟨h1, List.mem_cons_of_mem d h2⟩
    · rw [if_neg hd] at hg
      rcases hacc : cs.foldr splitStep [] with _ | ⟨g0, gs⟩
      · rw [hacc] at hg
        simp only [List.mem_singleton] at hg
        subst hg
        rcases List.mem_singleton.mp hc with rfl
        exact ⟨by simpa using hd, List.mem_cons_self c cs⟩
      · rw [hacc] at hg
        rcases List.mem_cons.mp hg with hg | hg
        · subst hg
          rcases List.mem_cons.mp hc with rfl | hc
          · exact ⟨by simpa using hd, List.mem_cons_self c cs⟩
          · obtain ⟨h1, h2⟩ := ih g0 (by rw [hacc]; exact List.mem_cons_self g0 gs) c hc
            exact ⟨h1, List.mem_cons_of_mem d h2⟩
        · obtain ⟨h1, h2⟩ := ih g (by rw [hacc]; exact List.mem_cons_of_mem g0 hg) c hc
          exact ⟨h1, List.mem_cons_of_mem d h2⟩

/-- Tokens produced by `pySplit` are non-empty and consist of non-space
characters of the input. -/
theorem pySplit_tokens {s g : List Nat} (hg : g ∈ pySplit s) :
    g ≠ [] ∧ ∀ c ∈ g, pyIsSpace c = false ∧ c ∈ s := by
  rw [pySplit] at hg
  obtain ⟨hmem, hne⟩ := List.mem_filter.mp hg
  refine ⟨by simpa using hne, foldr_splitStep_chars s g hmem⟩

/-- Lower-casing is idempotent. -/
theorem pyLower_idem (c : Nat) : pyLower (pyLower c) = pyLower c := by
  simp only [pyLower]
  split_ifs <;> omega

/-- Characters surviving `filterSymbols` are allowed, and come from the
input or are the replacement space. -/
theorem mem_filterSymbols {l : List Nat} {c : Nat} (h : c ∈ filterSymbols l) :
    allowedChar c = true ∧ (c = 0x20 ∨ c ∈ l) := by
  rw [filterSymbols] at h
  obtain ⟨d, hd, hc⟩ := List.mem_map.mp h
  by_cases had : allowedChar d = true
  · rw [if_pos had] at hc
    exact ⟨hc ▸ had, Or.inr (hc ▸ hd)⟩
  · rw [if_neg had] at hc
    exact ⟨hc ▸ (by decide), Or.inl hc.symm⟩

/-- Characters pending in a scanner state. -/
def stChars : WsState → List Nat
  | .plain => []
  | .single w => [w]
  | .run => []

/-- Characters of the collapsed text come from the pending state, the
input, or are the replacement space. -/
theorem collapseAux_chars : ∀ (l : List Nat) (st : WsState) (c : Nat),
    c ∈ collapseAux st l → c ∈ stChars st ∨ c ∈ l ∨ c = 0x20 := by
  intro l
  induction l with
  | nil =>
    intro st c hc
    cases st with
    | plain => simp [collapseAux] at hc
    | single w => simp [collapseAux] at hc; simp [stChars, hc]
    | run => simp [collapseAux] at hc
  | cons d cs ih =>
    intro st c hc
    cases st with
    | plain =>
      rw [collapseAux] at hc
      by_cases hd : pyIsSpace d = true
      · rw [if_pos hd] at hc
        rcases ih (.single d) c hc with hc | hc | hc
        · rcases List.mem_singleton.mp hc with rfl
          exact Or.inr (Or.inl (List.mem_cons_self c cs))
        · exact Or.inr (Or.inl (List.mem_cons_of_mem d hc))
        · exact Or.inr (Or.inr hc)
      · rw [if_neg hd] at hc
        rcases List.mem_cons.mp hc with rfl | hc
        · exact Or.inr (Or.inl (List.mem_cons_self c cs))
        · rcases ih .plain c hc with hc | hc | hc
          · simp [stChars] at hc
          · exact Or.inr (Or.inl (List.mem_cons_of_mem d hc))
          · exact Or.inr (Or.inr hc)
    | single w =>
      rw [collapseAux] at hc
      by_cases hd : pyIsSpace d = true
      · rw [if_pos hd] at hc
        rcases List.mem_cons.mp hc with rfl | hc
        · exact Or.inr (Or.inr rfl)
        · rcases ih .run c hc with hc | hc | hc
          · simp [stChars] at hc
          · exact Or.inr (Or.inl (List.mem_cons_of_mem d hc))
          · exact Or.inr (Or.inr hc)
      · rw [if_neg hd] at hc
        rcases List.mem_cons.mp hc with rfl | hc
        · exact Or.inl (List.mem_singleton.mpr rfl)
        · rcases List.mem_cons.mp hc with rfl | hc
          · exact Or.inr (Or.inl (List.mem_cons_self c cs))
          · rcases ih .plain c hc with hc | hc | hc
            · simp [stChars] at hc
            · exact Or.inr (Or.inl (List.mem_cons_of_mem d hc))
            · exact Or.inr (Or.inr hc)
    | run =>
      rw [collapseAux] at hc
      by_cases hd : pyIsSpace d = true
      · rw [if_pos hd] at hc
        rcases ih .run c hc with hc | hc | hc
        · simp [stChars] at hc
        · exact Or.inr (Or.inl (List.mem_cons_of_mem d hc))
        · exact Or.inr (Or.inr hc)
      · rw [if_neg hd] at hc
        rcases List.mem_cons.mp hc with rfl | hc
        · exact Or.inr (Or.inl (List.mem_cons_self c cs))
        · rcases ih .plain c hc with hc | hc | hc
          · simp [stChars] at hc
          · exact Or.inr (Or.inl (List.mem_cons_of_mem d hc))
          · exact Or.inr (Or.inr hc)

/-- Characters survive `pyStrip` only from the input. -/
theorem mem_of_mem_pyStrip {l : List Nat} {c : Nat} (h : c ∈ pyStrip l) : c ∈ l := by
  rw [pyStrip] at h
  have h1 := List.mem_reverse.mp h
  have h2 := (List.dropWhile_sublist pyIsSpace).subset h1
  have h3 := List.mem_reverse.mp h2
  exact (List.dropWhile_sublist pyIsSpace).subset h3

/-- Every character of a standardized text is in the allowed domain and is
fixed by lower-casing. -/
theorem standardize_chars {s : List Nat} {c : Nat}
    (hc : c ∈ standardize_text s) : allowedChar c = true ∧ pyLower c = c := by
  rw [standardize_text] at hc
  by_cases hs : s = []
  · rw [if_pos hs] at hc
    exact absurd hc (List.not_mem_nil c)
  · rw [if_neg hs] at hc
    have h1 := mem_of_mem_pyStrip hc
    rcases collapseAux_chars _ .plain c h1 with h2 | h2 | h2
    · simp [stChars] at h2
    · obtain ⟨hall, h3⟩ := mem_filterSymbols h2
      refine ⟨hall, ?_⟩
      rcases h3 with rfl | h3
      · decide
      · obtain ⟨d, _, hd⟩ := List.mem_map.mp h3
        rw [← hd]
        exact pyLower_idem d
    · subst h2
      exact ⟨by decide, by decide⟩

/-- Tokens of the full pipeline are non-empty and consist of non-space,
allowed, lower-case-fixed characters. -/
theorem pipeline_tokens_good {t tok : List Nat}
    (h : tok ∈ tokenize_content (standardize_text t)) :
    tok ≠ [] ∧ ∀ c ∈ tok,
      pyIsSpace c = false ∧ allowedChar c = true ∧ pyLower c = c := by
  rw [tokenize_content] at h
  by_cases hs : standardize_text t = []
  · rw [if_pos hs] at h
    exact absurd h (List.not_mem_nil tok)
  · rw [if_neg hs] at h
    obtain ⟨hne, hchars⟩ := pySplit_tokens h
    refine ⟨hne, fun c hc => ?_⟩
    obtain ⟨hsp, hmem⟩ := hchars c hc
    obtain ⟨hall, hfix⟩ := standardize_chars hmem
    exact ⟨hsp, hall, hfix⟩

/-- Characters of a joined token list come from the tokens or are the
joining space. -/
theorem mem_joinSpace : ∀ (ts : List (List Nat)) (c : Nat), c ∈ joinSpace ts →
    (∃ t ∈ ts, c ∈ t) ∨ c = 0x20 := by
  intro ts
  induction ts with
  | nil => intro c hc; simp [joinSpace] at hc
  | cons t ts ih =>
    intro c hc
    cases ts with
    | nil =>
      rw [joinSpace] at hc
      exact Or.inl ⟨t, List.mem_singleton.mpr rfl, hc⟩
    | cons t2 ts2 =>
      rw [joinSpace] at hc
      rcases List.mem_append.mp hc with hc | hc
      · exact Or.inl ⟨t, List.mem_cons_self t (t2 :: ts2), hc⟩
      · rcases List.mem_cons.mp hc with rfl | hc
        · exact Or.inr rfl
        · rcases ih c hc with ⟨u, hu, hcu⟩ | hc
          · exact Or.inl ⟨u, List.mem_cons_of_mem t hu, hcu⟩
          · exact Or.inr hc

/-- A map that fixes every element of a list fixes the list. -/
theorem map_fix {f : Nat → Nat} : ∀ {l : List Nat}, (∀ c ∈ l, f c = c) →
    l.map f = l := by
  intro l h
  calc l.map f = l.map id := List.map_congr_left h
  _ = l := List.map_id l

/-- The head of a joined non-empty-headed token list. -/
theorem joinSpace_cons_head (c : Nat) (tr : List Nat) :
    ∀ ts : List (List Nat), ∃ cs, joinSpace ((c :: tr) :: ts) = c :: cs := by
  intro ts
  cases ts with
  | nil => exact ⟨tr, rfl⟩
  | cons t2 ts2 => exact ⟨tr ++ 0x20 :: joinSpace (t2 :: ts2), rfl⟩

/-- The collapsing scan walks over non-space characters unchanged. -/
theorem collapseAux_plain_append : ∀ (t r : List Nat),
    (∀ c ∈ t, pyIsSpace c = false) →
    collapseAux .plain (t ++ r) = t ++ collapseAux .plain r := by
  intro t
  induction t with
  | nil => intro r _; simp
  | cons c t ih =>
    intro r ht
    have hc : pyIsSpace c = false := ht c (List.mem_cons_self c t)
    rw [List.cons_append, collapseAux, if_neg (by simp [hc]), ih r
      (fun d hd => ht d (List.mem_cons_of_mem c hd))]
    rfl

/-- Collapsing whitespace fixes a text joined from non-empty all-non-space
tokens. -/
theorem collapseWs_joinSpace : ∀ ts : List (List Nat),
    (∀ t ∈ ts, t ≠ [] ∧ ∀ c ∈ t, pyIsSpace c = false) →
    collapseWs (joinSpace ts) = joinSpace ts := by
  intro ts
  induction ts with
  | nil => intro _; rfl
  | cons t ts ih =>
    intro hgood
    obtain ⟨htne, htsp⟩ := hgood t (List.mem_cons_self t ts)
    cases ts with
    | nil =>
      rw [joinSpace, collapseWs]
      have h := collapseAux_plain_append t [] htsp
      simpa [collapseAux] using h
    | cons t2 ts2 =>
      obtain ⟨ht2ne, _⟩ := hgood t2 (List.mem_cons_of_mem t (List.mem_cons_self t2 ts2))
      obtain ⟨c, t2r, rfl⟩ : ∃ c t2r, t2 = c :: t2r := by
        cases t2 with
        | nil => exact absurd rfl ht2ne
        | cons c t2r => exact ⟨c, t2r, rfl⟩
      obtain ⟨cs, hcs⟩ := joinSpace_cons_head c t2r ts2
      have hcsp : pyIsSpace c = false := by
        obtain ⟨_, hsp⟩ := hgood (c :: t2r)
          (List.mem_cons_of_mem t (List.mem_cons_self _ ts2))
        exact hsp c (List.mem_cons_self c t2r)
      have hIH : collapseAux .plain (c :: cs) = c :: cs := by
        have h := ih (fun u hu => hgood u (List.mem_cons_of_mem t hu))
        rw [collapseWs] at h
        rw [← hcs]
        exact hcs ▸ h
      have htail : collapseAux .plain cs = cs := by
        rw [collapseAux, if_neg (by simp [hcsp])] at hIH
        exact (List.cons.injEq _ _ _ _).mp hIH |>.2
      rw [joinSpace, collapseWs, hcs]
      rw [collapseAux_plain_append t (0x20 :: c :: cs) htsp]
      rw [collapseAux, if_pos (by decide)]
      rw [collapseAux, if_neg (by simp [hcsp]), htail]

/-- Member of the last element via `getLast?`. -/
theorem mem_of_getLast_some {α : Type} : ∀ {l : List α} {c : α},
    l.getLast? = some c → c ∈ l := by
  intro l
  induction l with
  | nil => intro c h; simp at h
  | cons a l ih =>
    intro c h
    cases l with
    | nil =>
      simp at h
      simp [h]
    | cons b m =>
      rw [List.getLast?_cons_cons] at h
      exact List.mem_cons_of_mem a (ih h)

/-- The last character of a joined good token list is not whitespace. -/
theorem joinSpace_getLast_nonspace : ∀ ts : List (List Nat),
    (∀ t ∈ ts, t ≠ [] ∧ ∀ c ∈ t, pyIsSpace c = false) →
    ∀ c : Nat, (joinSpace ts).getLast? = some c → pyIsSpace c = false := by
  intro ts
  induction ts with
  | nil => intro _ c h; simp [joinSpace] at h
  | cons t ts ih =>
    intro hgood c h
    cases ts with
    | nil =>
      rw [joinSpace] at h
      obtain ⟨_, hsp⟩ := hgood t (List.mem_cons_self t [])
      exact hsp c (mem_of_getLast_some h)
    | cons t2 ts2 =>
      rw [joinSpace, List.getLast?_append] at h
      obtain ⟨ht2ne, _⟩ := hgood t2 (List.mem_cons_of_mem t (List.mem_cons_self t2 ts2))
      obtain ⟨d, t2r, rfl⟩ : ∃ d t2r, t2 = d :: t2r := by
        cases t2 with
        | nil => exact absurd rfl ht2ne
        | cons d t2r => exact ⟨d, t2r, rfl⟩
      obtain ⟨cs, hcs⟩ := joinSpace_cons_head d t2r ts2
      have hlast : (0x20 :: joinSpace ((d :: t2r) :: ts2)).getLast?
          = (joinSpace ((d :: t2r) :: ts2)).getLast? := by
        rw [hcs, List.getLast?_cons_cons]
      rw [hlast] at h
      have hne : joinSpace ((d :: t2r) :: ts2) ≠ [] := by
        rw [hcs]; exact List.cons_ne_nil d cs
      obtain ⟨e, he⟩ := Option.ne_none_iff_exists'.mp
        (mt List.getLast?_eq_none_iff.mp hne)
      rw [he] at h
      have hec : e = c := by simpa using h
      rw [hec] at he
      exact ih (fun u hu => hgood u (List.mem_cons_of_mem t hu)) c he

/-- Stripping fixes a text whose first and last characters are not
whitespace. -/
theorem pyStrip_eq_self {l : List Nat}
    (hhead : ∀ c, l.head? = some c → pyIsSpace c = false)
    (hlast : ∀ c, l.getLast? = some c → pyIsSpace c = false) :
    pyStrip l = l := by
  rw [pyStrip]
  have h1 : l.dropWhile pyIsSpace = l := by
    cases l with
    | nil => rfl
    | cons c cs =>
      rw [List.dropWhile_cons, if_neg (by simp [hhead c rfl])]
  rw [h1]
  have h2 : l.reverse.dropWhile pyIsSpace = l.reverse := by
    rcases hrev : l.reverse with _ | ⟨d, ds⟩
    · rfl
    · have hd : l.getLast? = some d := by
        rw [← List.head?_reverse, hrev]; rfl
      rw [List.dropWhile_cons, if_neg (by simp [hlast d hd])]
  rw [h2, List.reverse_reverse]

/-- Stripping fixes a text joined from good tokens. -/
theorem pyStrip_joinSpace (ts : List (List Nat))
    (hgood : ∀ t ∈ ts, t ≠ [] ∧ ∀ c ∈ t, pyIsSpace c = false) :
    pyStrip (joinSpace ts) = joinSpace ts := by
  refine pyStrip_eq_self ?_ (joinSpace_getLast_nonspace ts hgood)
  intro c hc
  cases ts with
  | nil => simp [joinSpace] at hc
  | cons t ts2 =>
    obtain ⟨htne, htsp⟩ := hgood t (List.mem_cons_self t ts2)
    obtain ⟨d, tr, rfl⟩ : ∃ d tr, t = d :: tr := by
      cases t with
      | nil => exact absurd rfl htne
      | cons d tr => exact ⟨d, tr, rfl⟩
    obtain ⟨cs, hcs⟩ := joinSpace_cons_head d tr ts2
    rw [hcs] at hc
    have hdc : d = c := by simpa using hc
    rw [← hdc]
    exact htsp d (List.mem_cons_self d tr)

/-- The split fold walks a non-space fragment into the current group. -/
theorem foldr_splitStep_push : ∀ (t g : List Nat) (gs : List (List Nat)),
    (∀ c ∈ t, pyIsSpace c = false) →
    t.foldr splitStep (g :: gs) = (t ++ g) :: gs := by
  intro t
  induction t with
  | nil => intro g gs _; rfl
  | cons c t ih =>
    intro g gs ht
    have hc : pyIsSpace c = false := ht c (List.mem_cons_self c t)
    rw [List.foldr_cons, ih g gs (fun d hd => ht d (List.mem_cons_of_mem c hd))]
    rw [splitStep.eq_def, if_neg (by simp [hc])]
    rfl

/-- The split fold turns a single non-empty non-space fragment into one
group. -/
theorem foldr_splitStep_single : ∀ (t : List Nat), t ≠ [] →
    (∀ c ∈ t, pyIsSpace c = false) →
    t.foldr splitStep [] = [t] := by
  intro t
  induction t with
  | nil => intro h _; exact absurd rfl h
  | cons c t ih =>
    intro _ ht
    have hc : pyIsSpace c = false := ht c (List.mem_cons_self c t)
    cases t with
    | nil =>
      rw [List.foldr_cons, List.foldr_nil, splitStep.eq_def, if_neg (by simp [hc])]
    | cons c2 t2 =>
      rw [List.foldr_cons, ih (List.cons_ne_nil c2 t2)
        (fun d hd => ht d (List.mem_cons_of_mem c hd))]
      rw [splitStep.eq_def, if_neg (by simp [hc])]

/-- The split fold recovers the token list from the joined text. -/
theorem foldr_splitStep_joinSpace : ∀ ts : List (List Nat),
    (∀ t ∈ ts, t ≠ [] ∧ ∀ c ∈ t, pyIsSpace c = false) →
    (joinSpace ts).foldr splitStep [] = ts := by
  intro ts
  induction ts with
  | nil => intro _; rfl
  | cons t ts ih =>
    intro hgood
    obtain ⟨htne, htsp⟩ := hgood t (List.mem_cons_self t ts)
    cases ts with
    | nil =>
      rw [joinSpace]
      exact foldr_splitStep_single t htne htsp
    | cons t2 ts2 =>
      rw [joinSpace, List.foldr_append, List.foldr_cons]
      rw [ih (fun u hu => hgood u (List.mem_cons_of_mem t hu))]
      rw [splitStep.eq_def, if_pos (by decide)]
      rw [foldr_splitStep_push t [] (t2 :: ts2) htsp]
      rw [List.append_nil]

/-- Splitting recovers the token list from the joined text. -/
theorem pySplit_joinSpace (ts : List (List Nat))
    (hgood : ∀ t ∈ ts, t ≠ [] ∧ ∀ c ∈ t, pyIsSpace c = false) :
    pySplit (joinSpace ts) = ts := by
  rw [pySplit, foldr_splitStep_joinSpace ts hgood]
  rw [List.filter_eq_self]
  intro t ht
  simpa using (hgood t ht).1

/-- Symbol filtering fixes a text of allowed characters. -/
theorem filterSymbols_fix {l : List Nat} (h : ∀ c ∈ l, allowedChar c = true) :
    filterSymbols l = l := by
  rw [filterSymbols]
  exact map_fix (fun c hc => if_pos (h c hc))

/-- Re-tokenization is stable: normalizing and tokenizing the texts joined
from the pipeline tokens recovers exactly the pipeline tokens. -/
theorem pipeline_roundtrip (t : List Nat) :
    tokenize_content (standardize_text
        (joinSpace (tokenize_content (standardize_text t)))) =
      tokenize_content (standardize_text t) := by
  have hgood : ∀ u ∈ tokenize_content (standardize_text t),
      u ≠ [] ∧ ∀ c ∈ u, pyIsSpace c = false := by
    intro u hu
    obtain ⟨hne, hchars⟩ := pipeline_tokens_good hu
    exact ⟨hne, fun c hc => (hchars c hc).1⟩
  have hchars : ∀ c ∈ joinSpace (tokenize_content (standardize_text t)),
      allowedChar c = true ∧ pyLower c = c := by
    intro c hc
    rcases mem_joinSpace _ c hc with ⟨u, hu, hcu⟩ | rfl
    · obtain ⟨_, hch⟩ := pipeline_tokens_good hu
      obtain ⟨_, hall, hfix⟩ := hch c hcu
      exact ⟨hall, hfix⟩
    · exact ⟨by decide, by decide⟩
  rcases hts : tokenize_content (standardize_text t) with _ | ⟨t0, ts0⟩
  · rfl
  · have hjne : joinSpace (t0 :: ts0) ≠ [] := by
      obtain ⟨hne, _⟩ := hgood t0 (hts ▸ List.mem_cons_self t0 ts0)
      obtain ⟨d, tr, rfl⟩ : ∃ d tr, t0 = d :: tr := by
        cases t0 with
        | nil => exact absurd rfl hne
        | cons d tr => exact ⟨d, tr, rfl⟩
      obtain ⟨cs, hcs⟩ := joinSpace_cons_head d tr ts0
      rw [hcs]
      exact List.cons_ne_nil d cs
    have hgood2 : ∀ u ∈ t0 :: ts0, u ≠ [] ∧ ∀ c ∈ u, pyIsSpace c = false := by
      intro u hu; exact hgood u (hts ▸ hu)
    have hchars2 : ∀ c ∈ joinSpace (t0 :: ts0),
        allowedChar c = true ∧ pyLower c = c := by
      intro c hc; exact hchars c (by rw [hts]; exact hc)
    have hfix : standardize_text (joinSpace (t0 :: ts0)) = joinSpace (t0 :: ts0) := by
      rw [standardize_text, if_neg hjne]
      rw [map_fix (fun c hc => (hchars2 c hc).2)]
      rw [filterSymbols_fix (fun c hc => (hchars2 c hc).1)]
      rw [collapseWs_joinSpace _ hgood2, pyStrip_joinSpace _ hgood2]
    rw [hfix, tokenize_content, if_neg hjne, pySplit_joinSpace _ hgood2]

/-- The similarity depends on the inputs only through their token lists. -/
theorem similarity_of_tokens_eq {a2 a b2 b : List Nat}
    (ha : tokenize_content (standardize_text a2) = tokenize_content (standardize_text a))
    (hb : tokenize_content (standardize_text b2) = tokenize_content (standardize_text b)) :
    compute_textual_similarity a2 b2 = compute_textual_similarity a b := by
  rw [compute_textual_similarity_eq, compute_textual_similarity_eq,
    base_length_of, base_length_of, ha, hb]

/-- For truthy (non-empty) contents the main-program path agrees with the
direct similarity of the raw contents. -/
theorem calculate_similarity_eq {orig plag : List Nat}
    (ho : orig ≠ []) (hp : plag ≠ []) :
    calculate_similarity orig plag = some (compute_textual_similarity orig plag) := by
  rw [calculate_similarity, preprocess_opt, preprocess_opt, if_neg ho, if_neg hp]
  exact congrArg some
    (similarity_of_tokens_eq (pipeline_roundtrip orig) (pipeline_roundtrip plag))

end RoundTrip


/-- C1: for every pair of token sequences `a` and `b`,
`LCSEngine.calculate_lcs_length a b` is the length of a longest common
subsequence of `a` and `b`: some common subsequence attains it and no
common subsequence is longer; in particular it is 3 on the spec's example
`["a","b","c","d"]`, `["a","c","e","d"]`. -/
theorem C1_calculate_lcs_length_is_lcs :
    (∀ a b : List (List Nat),
      (∃ s : List (List Nat), s.Sublist a ∧ s.Sublist b ∧
        s.length = calculate_lcs_length a b) ∧
      ∀ s : List (List Nat), s.Sublist a → s.Sublist b →
        s.length ≤ calculate_lcs_length a b) ∧
    calculate_lcs_length [strCodes "a", strCodes "b", strCodes "c", strCodes "d"]
      [strCodes "a", strCodes "c", strCodes "e", strCodes "d"] = 3 := by
  constructor
  · intro a b
    rw [calculate_lcs_length_eq_lcsSpec]
    exact ⟨lcsSpec_exists_common a b, fun s hsa hsb => lcsSpec_is_max a b s hsa hsb⟩
  · decide

/-- C2: for every pair of token sequences, the rolling two-row
implementation returns the same value as the reference full-table DP with
zero base row and the standard recurrence. -/
theorem C2_rolling_equals_full_table :
    ∀ a b : List (List Nat), calculate_lcs_length a b = lcs_full_table a b :=
  fun a b => calculate_eq_full_table a b

/-- C3: if either text's token sequence after normalization and
tokenization is empty, `compute_textual_similarity` returns exactly 0. -/
theorem C3_empty_token_similarity_zero :
    ∀ a b : List Nat,
      tokenize_content (standardize_text a) = [] ∨
        tokenize_content (standardize_text b) = [] →
      compute_textual_similarity a b = 0 := by
  intro a b h
  rcases h with h | h
  · exact similarity_empty_left h
  · exact similarity_empty_right h

/-- Witness for C3 at the concrete pair `""`, `"hello"`. -/
theorem C3_witness :
    (tokenize_content (standardize_text (strCodes "")) = [] ∨
      tokenize_content (standardize_text (strCodes "hello")) = []) ∧
    compute_textual_similarity (strCodes "") (strCodes "hello") = 0 :=
  ⟨Or.inl (by decide),
    C3_empty_token_similarity_zero (strCodes "") (strCodes "hello") (Or.inl (by decide))⟩

/-- C4: every text with a non-empty token sequence has similarity 1.0 with
itself. -/
theorem C4_self_similarity_one :
    ∀ t : List Nat, tokenize_content (standardize_text t) ≠ [] →
      compute_textual_similarity t t = 1 :=
  fun _ h => similarity_self h

/-- Witness for C4 at the concrete text `"hello world"`. -/
theorem C4_witness :
    tokenize_content (standardize_text (strCodes "hello world")) ≠ [] ∧
    compute_textual_similarity (strCodes "hello world") (strCodes "hello world") = 1 :=
  ⟨by decide, C4_self_similarity_one (strCodes "hello world") (by decide)⟩

/-- C5: `standardize_text` applies, in order, lower-casing, replacement of
every character outside the allowed domain by a single space, collapsing of
whitespace runs, and trimming; in particular on the two concrete
examples. -/
theorem C5_standardize_text_stages :
    (∀ s : List Nat,
      standardize_text s = pyStrip (collapseWs (filterSymbols (s.map pyLower)))) ∧
    standardize_text (strCodes "Hello, World!") = strCodes "hello world" ∧
    standardize_text (strCodes "  多个  空格  ") = strCodes "多个 空格" := by
  refine ⟨?_, by decide, by decide⟩
  intro s
  by_cases hs : s = []
  · subst hs; rfl
  · rw [standardize_text, if_neg hs]

/-- C6: the similarity always lies in the closed interval [0, 1]. -/
theorem C6_similarity_in_unit_interval :
    ∀ a b : List Nat,
      0 ≤ compute_textual_similarity a b ∧ compute_textual_similarity a b ≤ 1 :=
  fun a b => similarity_bounds a b

/-- C7: the metric is asymmetric: for the concrete texts
A = `"hello world"` and B = `"hello there world"`, A is shorter than B and
all of A's tokens occur as a subsequence of B's tokens, the similarity of
A against B is 1, and of B against A is strictly below 1. -/
theorem C7_similarity_asymmetric :
    (tokenize_content (standardize_text (strCodes "hello world"))).Sublist
      (tokenize_content (standardize_text (strCodes "hello there world"))) ∧
    (strCodes "hello world").length < (strCodes "hello there world").length ∧
    compute_textual_similarity (strCodes "hello world")
      (strCodes "hello there world") = 1 ∧
    compute_textual_similarity (strCodes "hello there world")
      (strCodes "hello world") < 1 := by
  have hA : tokenize_content (standardize_text (strCodes "hello world"))
      = [strCodes "hello", strCodes "world"] := by decide
  have hB : tokenize_content (standardize_text (strCodes "hello there world"))
      = [strCodes "hello", strCodes "there", strCodes "world"] := by decide
  have hlcsAB : calculate_lcs_length [strCodes "hello", strCodes "world"]
      [strCodes "hello", strCodes "there", strCodes "world"] = 2 := by decide
  have hlcsBA : calculate_lcs_length
      [strCodes "hello", strCodes "there", strCodes "world"]
      [strCodes "hello", strCodes "world"] = 2 := by decide
  have hbaseA : base_length_of (strCodes "hello world") = 2 := by decide
  have hbaseB : base_length_of (strCodes "hello there world") = 3 := by decide
  refine ⟨by decide, by decide, ?_, ?_⟩
  · rw [compute_textual_similarity_eq, hA, hB, hlcsAB, hbaseA]
    norm_num [round4_one]
  · rw [compute_textual_similarity_eq, hA, hB, hlcsBA, hbaseB]
    have hclamp : max 0 (min 1 ((2 : ℚ) / 3)) = 2 / 3 := by norm_num
    have hval : round4 ((2 : ℚ) / 3) = 6667 / 10000 := by
      rw [round4]
      norm_num [roundHalfEven]
    push_cast
    rw [hclamp, hval]
    norm_num

/-- C8: the LCS length never exceeds the length of either sequence. -/
theorem C8_lcs_le_min_length :
    ∀ a b : List (List Nat),
      calculate_lcs_length a b ≤ min a.length b.length := by
  intro a b
  rw [calculate_lcs_length_eq_lcsSpec]
  exact lcsSpec_le_min a b

/-- C9: the pipeline is total: `standardize_text` maps `None`, the empty
string and non-string values to the empty text; the scoring denominator is
always at least 1, and the similarity is exactly the single guarded
division, clamped and rounded. -/
theorem C9_pipeline_total_guarded :
    standardize_text_py PyVal.pynone = [] ∧
    standardize_text_py (PyVal.pystr []) = [] ∧
    standardize_text_py PyVal.pyother = [] ∧
    (∀ t : List Nat, 1 ≤ base_length_of t) ∧
    (∀ a b : List Nat, compute_textual_similarity a b =
      round4 (max 0 (min 1
        ((calculate_lcs_length (tokenize_content (standardize_text a))
            (tokenize_content (standardize_text b)) : ℚ) /
          (base_length_of a : ℚ))))) := by
  refine ⟨rfl, rfl, rfl, ?_, fun a b => rfl⟩
  intro t
  rw [base_length_of]
  split_ifs with h
  · exact le_refl 1
  · omega

/-- C10: re-tokenization is stable — re-running the pipeline on the
space-joined pipeline tokens returns the same tokens — and for truthy
(non-empty) contents `PaperCheckSystem.calculate_similarity` returns
exactly the direct similarity of the raw contents; but at empty (falsy)
content the main path crashes (`" ".join(None)` raises, modelled `none`)
although the direct similarity is defined and equals 0. -/
theorem C10_join_none_crash :
    (∀ t : List Nat,
      tokenize_content (standardize_text
          (joinSpace (tokenize_content (standardize_text t)))) =
        tokenize_content (standardize_text t)) ∧
    (∀ orig plag : List Nat, orig ≠ [] → plag ≠ [] →
      calculate_similarity orig plag =
        some (compute_textual_similarity orig plag)) ∧
    calculate_similarity [] [] = none ∧
    compute_textual_similarity [] [] = 0 := by
  refine ⟨pipeline_roundtrip, fun orig plag ho hp => calculate_similarity_eq ho hp,
    rfl, ?_⟩
  exact similarity_empty_left (by decide)

/-- Witness for C10 at the concrete non-empty contents `"a"`, `"b"`. -/
theorem C10_witness :
    calculate_similarity (strCodes "a") (strCodes "b") =
      some (compute_textual_similarity (strCodes "a") (strCodes "b")) :=
  C10_join_none_crash.2.1 (strCodes "a") (strCodes "b") (by decide) (by decide)
